import Mathlib

/-!
Verification of the network-graph compiler and stateful forward-execution
engine of `src/models/modules.py` (classes `LayerGen`, `Pass`, `Conv`,
`Pool`, `Norm`, `LIF`, `Return`, `BlockGen`, `ModelGen`).

The embedding translates the Python code directly:
* layer descriptors become the inductive `LayerGen`, and `LayerGen.get`
  mirrors each descriptor's `get` method;
* the nested specification lists (`ListGen`) become `GElem` trees;
* `BlockGen.__init__` / `BlockGen._make_branch` become `blockGenInit`,
  `initBranches` and `makeBranchLoop`, returning `Except Err` to model
  the Python exceptions that construction can raise;
* `BlockGen.forward` becomes `blockGenForward`, parametrized by a
  `Backend` of opaque numeric layer functions (the numeric internals of
  convolution, pooling, normalization and the LIF cell are outside the
  modeled core and are consumed as opaque capability-typed units);
* the dynamic `ListState` values (`tensor | None | list`) become `SVal`;
* Python's in-place assignment `branch_state[idx] = ...` is modeled by
  threading list values functionally and, for the aliasing effect on the
  caller's container, by `postIncoming`.
-/

namespace SpikeYolo

/-- Exceptions the Python code can raise in the modeled fragment. -/
inductive Err where
  /-- `TypeError`: e.g. `nn.ModuleList` given the bare class `nn.Identity`,
      iterating a non-list branch configuration, or calling a module with
      an argument pattern its `forward` does not accept. -/
  | typeError : Err
  /-- `AttributeError`: reading `BlockGen.out_channels` when the attribute
      was never assigned (zero-branch construction). -/
  | attributeError : Err
  /-- `KeyError`, carrying the missing key, from `self.default_cfgs[cfg]`
      in `ModelGen.__init__`. -/
  | keyError (key : String) : Err
  /-- `IndexError`: `branch_state[idx]` with `idx` out of range. -/
  | indexError : Err
  /-- `RuntimeError`: `torch.stack` applied to an empty list. -/
  | runtimeError : Err
  deriving DecidableEq, Repr

/-- The message attached to an exception; Python's `KeyError` carries only
    the missing key. -/
def Err.message : Err → String
  | .keyError k => k
  | _ => ""

/-- The three pooling sub-kinds accepted by `Pool.__init__`
    (`"A"`, `"M"`, `"S"`). -/
inductive PoolKind where
  | avg | max | sum
  deriving DecidableEq, Repr

/-- Layer descriptors: the `LayerGen` subclasses of the source
    (`Pass`, `Conv`, `Pool`, `Norm`, `LIF`, `Return`). -/
inductive LayerGen where
  | pass : LayerGen
  | conv (out_channels kernel_size stride : Nat) : LayerGen
  | pool (kind : PoolKind) (kernel_size stride : Nat) : LayerGen
  | norm : LayerGen
  | lif : LayerGen
  | ret : LayerGen
  deriving DecidableEq, Repr

/-- An element of a `ListGen` (`List[LayerGen | ListGen]`): either a layer
    descriptor or a nested list. -/
inductive GElem where
  | gen (g : LayerGen) : GElem
  | list (l : List GElem) : GElem
  deriving Repr

/-- A compiled layer instance as stored in a branch's `nn.ModuleList`:
    either one of the concrete module instances produced by the
    descriptors' `get` methods, or a nested `BlockGen` (stored with its
    `net`, `branch_state` mask and `out_channels` attribute, the latter
    `none` when it was never assigned). -/
inductive CLayer where
  | conv (in_channels out_channels kernel_size padding stride : Nat) : CLayer
  | avgPool (kernel_size stride : Nat) : CLayer
  | maxPool (kernel_size stride : Nat) : CLayer
  | sumPool (kernel_size stride : Nat) : CLayer
  | norm (channels : Nat) : CLayer
  | lif : CLayer
  | storage : CLayer
  | block (net : List (List CLayer)) (mask : List (List Bool))
      (outCh : Option Nat) : CLayer

/-- The compiled result of `BlockGen.__init__`: the branch list `self.net`,
    the state mask `self.branch_state`, and the `out_channels` attribute
    (`none` when never assigned, i.e. zero branches). -/
structure CompiledBlock where
  net : List (List CLayer)
  branch_state : List (List Bool)
  out_channels : Option Nat

/-- The value returned by a descriptor's `get`: normally a module
    instance, but `Pass.get` returns the bare class object `nn.Identity`
    (source line 76: `return nn.Identity, in_channels`, without
    parentheses). -/
inductive Resolved where
  | instL (l : CLayer) : Resolved
  | identityCls : Resolved

/-- `norse.torch.utils.state._is_module_stateful`, which inspects whether
    the module's `forward` has a `state` parameter: true exactly for
    `snn.LIFCell` and for nested `BlockGen` instances. -/
def isStatefulC : CLayer → Bool
  | .lif => true
  | .block _ _ _ => true
  | _ => false

/-- Statefulness of a resolved object; the bare `nn.Identity` class has a
    `forward(self, input)` signature without a `state` parameter. -/
def isStatefulR : Resolved → Bool
  | .instL l => isStatefulC l
  | .identityCls => false

/-- The `get` methods of the layer descriptors.  `Conv.get` uses
    `padding=int(kernel_size / 2)`, which equals Nat division `k / 2`;
    `Pool.get` instantiates the pool class with `(kernel_size, stride)`;
    `Pass.get` returns the class `nn.Identity` itself, not an instance. -/
def LayerGen.get : LayerGen → Nat → Resolved × Nat
  | .pass, c => (.identityCls, c)
  | .conv oc k s, c => (.instL (.conv c oc k (k / 2) s), oc)
  | .pool .avg k s, c => (.instL (.avgPool k s), c)
  | .pool .max k s, c => (.instL (.maxPool k s), c)
  | .pool .sum k s, c => (.instL (.sumPool k s), c)
  | .norm, c => (.instL (.norm c), c)
  | .lif, c => (.instL .lif, c)
  | .ret, c => (.instL .storage, c)

/-- `nn.ModuleList(layer_list)`: each element must be a `Module`
    instance; the bare class object `nn.Identity` raises `TypeError`
    (`Module.add_module` type check). -/
def moduleListCheck : List Resolved → Except Err (List CLayer)
  | [] => .ok []
  | .instL l :: rest => do
      let ls ← moduleListCheck rest
      .ok (l :: ls)
  | .identityCls :: _ => .error .typeError

mutual

/-- The branch loop of `BlockGen.__init__` (source lines 154-159): for
    each branch configuration call `_make_branch` and overwrite
    `self.out_channels` with that branch's output count.  `outC` is the
    current value of the `out_channels` attribute (`none` = unassigned).
    A branch configuration that is a bare `LayerGen` cannot be iterated
    by `_make_branch` and raises `TypeError`. -/
def initBranches (in_channels : Nat) (outC : Option Nat) :
    List GElem → Except Err (List (List CLayer) × List (List Bool) × Option Nat)
  | [] => .ok ([], [], outC)
  | .gen _ :: _ => .error .typeError
  | .list cfg :: rest => do
      let (resolved, flags, ch) ← makeBranchLoop in_channels cfg
      let layers ← moduleListCheck resolved
      let (net, masks, outC1) ← initBranches in_channels (some ch) rest
      .ok (layers :: net, flags :: masks, outC1)

/-- The layer loop of `BlockGen._make_branch` (source lines 175-185):
    walk the configuration threading the running channel count; a nested
    list becomes a nested `BlockGen` (whose `out_channels` attribute is
    then read — `AttributeError` if it was never assigned), a descriptor
    is resolved via its `get`; the statefulness flag of each produced
    layer is recorded. -/
def makeBranchLoop (channels : Nat) :
    List GElem → Except Err (List Resolved × List Bool × Nat)
  | [] => .ok ([], [], channels)
  | .list l :: rest => do
      let (net, masks, outC) ← initBranches channels none l
      let ch ← match outC with
        | some c => Except.ok c
        | none => Except.error Err.attributeError
      let (ls, fs, out) ← makeBranchLoop ch rest
      .ok (.instL (.block net masks outC) :: ls, true :: fs, out)
  | .gen g :: rest => do
      let (layer, ch) := g.get channels
      let (ls, fs, out) ← makeBranchLoop ch rest
      .ok (layer :: ls, isStatefulR layer :: fs, out)

end

/-- `BlockGen.__init__(in_channels, cfgs)`: run the branch loop starting
    with `out_channels` unassigned and package the attributes. -/
def blockGenInit (in_channels : Nat) (cfgs : List GElem) :
    Except Err CompiledBlock := do
  let (net, masks, outC) ← initBranches in_channels none cfgs
  .ok ⟨net, masks, outC⟩

/-- A dynamic `ListState` value (`List[torch.Tensor | None | ListState]`,
    or `None`): `noneV` is Python `None`, `leaf` an opaque per-layer state
    value, `list` a Python list. -/
inductive SVal (σ : Type) where
  | noneV : SVal σ
  | leaf (s : σ) : SVal σ
  | list (l : List (SVal σ)) : SVal σ

/-- The opaque numeric semantics of the external layer implementations
    (out of the modeled core): each field interprets one concrete module's
    forward pass on an abstract tensor type `T`, with `σ` the opaque state
    type owned by the LIF cell.  `add` is element-wise tensor addition
    (used by `torch.stack(out).sum(dim=0)`), `scale` multiplication of a
    tensor by a natural scalar (used by `SumPool2d`). -/
structure Backend (T σ : Type) where
  conv : Nat → Nat → Nat → Nat → Nat → T → T
  avgPool2d : Nat → Nat → Nat → T → T
  maxPool : Nat → Nat → T → T
  norm : Nat → T → T
  lif : T → Option σ → T × σ
  scale : Nat → T → T
  add : T → T → T

variable {T σ : Type}

/-- `SumPool2d.forward`: `F.avg_pool2d(X, k, s, p) * k * k`. -/
def sumPool2dForward (B : Backend T σ) (k s p : Nat) (X : T) : T :=
  B.scale (k * k) (B.avgPool2d k s p X)

/-- Calling a layer with the tensor alone (`Y = layer(Y)`, source line
    212).  `nn.AvgPool2d`/`SumPool2d` are built with default `padding=0`;
    `Storage.forward` returns its input unchanged (recording it aside).
    Calling an `snn.LIFCell` or a nested `BlockGen` this way would return
    a `(tensor, state)` tuple that poisons every subsequent tensor
    operation; it is modeled as an immediate error (such a call is
    unreachable from a compiled mask, which is `True` at exactly those
    positions). -/
def statelessForward (B : Backend T σ) : CLayer → T → Except Err T
  | .conv ic oc k p s, X => .ok (B.conv ic oc k p s X)
  | .avgPool k s, X => .ok (B.avgPool2d k s 0 X)
  | .maxPool k s, X => .ok (B.maxPool k s X)
  | .sumPool k s, X => .ok (sumPool2dForward B k s 0 X)
  | .norm c, X => .ok (B.norm c X)
  | .storage, X => .ok X
  | .lif, _ => .error .typeError
  | .block _ _ _, _ => .error .typeError

/-- Interpreting a `ListState | None` value as a list of `n` entries:
    `None` synthesizes `[None] * n` (source lines 200 and 204-206); a
    list is used as is; a raw tensor cannot be consumed this way. -/
def stateEntries (n : Nat) : SVal σ → Except Err (List (SVal σ))
  | .noneV => .ok (List.replicate n .noneV)
  | .list l => .ok l
  | .leaf _ => .error .typeError

/-- `torch.stack(out).sum(dim=0)`: element-wise sum of the branch
    outputs; `torch.stack` of an empty list raises. -/
def stackSum (B : Backend T σ) : List T → Except Err T
  | [] => .error .runtimeError
  | y :: ys => .ok (ys.foldl B.add y)

mutual

/-- Calling a layer with tensor and state
    (`Y, branch_state[idx] = layer(Y, branch_state[idx])`, source line
    210): an `snn.LIFCell` consumes `None` or its own opaque state; a
    nested `BlockGen` runs its whole forward pass on the slot, which
    becomes the nested output state list; any other module called with
    two arguments raises. -/
def statefulForward (B : Backend T σ) :
    CLayer → T → SVal σ → Except Err (T × SVal σ)
  | .lif, X, .noneV =>
      let (y, s) := B.lif X none
      .ok (y, .leaf s)
  | .lif, X, .leaf s =>
      let (y, s1) := B.lif X (some s)
      .ok (y, .leaf s1)
  | .lif, _, .list _ => .error .typeError
  | .block net mask _, X, slot => do
      let entries ← stateEntries net.length slot
      let rs ← runBranches B net mask entries X
      let merged ← stackSum B (rs.map Prod.fst)
      .ok (merged, .list (rs.map (fun r => SVal.list r.2)))
  | _, _, _ => .error .typeError

/-- The branch loop of `BlockGen.forward` (source lines 201-214):
    `zip(self.net, self.branch_state, state)` truncates to the shortest
    of the three lists; each branch synthesizes fresh slots from a `None`
    entry, runs its layers, and contributes its output tensor and final
    slot list. -/
def runBranches (B : Backend T σ) :
    List (List CLayer) → List (List Bool) → List (SVal σ) → T →
    Except Err (List (T × List (SVal σ)))
  | branch :: bs, flags :: fss, bstate :: ss, X => do
      let slots ← stateEntries branch.length bstate
      let r ← runLayers B branch flags 0 slots X
      let rs ← runBranches B bs fss ss X
      .ok (r :: rs)
  | _, _, _, _ => .ok []

/-- The layer loop of one branch (source lines 208-212):
    `zip(branch, state_flags)` truncates to the shorter list; `idx` is
    the `enumerate` counter; `bst` is the current value of the
    `branch_state` list, read and assigned at `idx` only when the mask
    bit is set (`IndexError` when `idx` is out of range). -/
def runLayers (B : Backend T σ) :
    List CLayer → List Bool → Nat → List (SVal σ) → T →
    Except Err (T × List (SVal σ))
  | layer :: ls, flag :: fs, idx, bst, Y =>
      if flag then
        match bst.get? idx with
        | none => .error .indexError
        | some slot => do
            let (Y1, s1) ← statefulForward B layer Y slot
            runLayers B ls fs (idx + 1) (bst.set idx s1) Y1
      else do
        let Y1 ← statelessForward B layer Y
        runLayers B ls fs (idx + 1) bst Y1
  | _, _, _, bst, Y => .ok (Y, bst)

end

/-- `BlockGen.forward(X, state)` on a compiled block: returns the merged
    tensor and the `out_state` list. -/
def blockGenForward (B : Backend T σ) (blk : CompiledBlock) (X : T)
    (state : SVal σ) : Except Err (T × List (List (SVal σ))) := do
  let entries ← stateEntries blk.net.length state
  let rs ← runBranches B blk.net blk.branch_state entries X
  let merged ← stackSum B (rs.map Prod.fst)
  .ok (merged, rs.map Prod.snd)

/-- Value of the caller's branch entries after the call.  The source
    assigns `branch_state[idx] = ...` in place (line 210), so a provided
    (non-`None`) branch entry of the incoming container ends up holding
    exactly the list returned in `out_state` at that position, while a
    `None` entry is left untouched (a fresh list was synthesized for it)
    and entries beyond the `zip` truncation are never visited. -/
def updateEntries : List (SVal σ) → List (List (SVal σ)) → List (SVal σ)
  | l, [] => l
  | [], _ => []
  | e :: l, o :: os =>
      (match e with
       | .noneV => SVal.noneV
       | _ => SVal.list o) :: updateEntries l os

/-- Value of the caller-supplied state container after the call (the
    aliasing effect of the in-place slot assignments). -/
def postIncoming (state : SVal σ) (out_state : List (List (SVal σ))) : SVal σ :=
  match state with
  | .noneV => .noneV
  | .leaf s => .leaf s
  | .list l => .list (updateEntries l out_state)

/-- `BlockGen.forward` together with the post-call value of the incoming
    state container. -/
def blockGenForwardFull (B : Backend T σ) (blk : CompiledBlock) (X : T)
    (state : SVal σ) : Except Err (T × List (List (SVal σ)) × SVal σ) := do
  let (y, os) ← blockGenForward B blk X state
  .ok (y, os, postIncoming state os)

/-- `ModelGen.__init__`'s preset lookup `self.default_cfgs[cfg]`: a
    Python dict indexing raising `KeyError(cfg)` on a miss.  The registry
    is the `default_cfgs` dictionary populated by the subclass's
    `_load_cfg`. -/
def dictGet (d : List (String × List GElem)) (k : String) :
    Except Err (List GElem) :=
  match d.find? (fun p => p.1 == k) with
  | some p => .ok p.2
  | none => .error (.keyError k)

/-- `ModelGen.__init__(cfg, in_channels)`: resolve a named preset from
    the registry (or use a literal list), wrap it as the single branch of
    a `BlockGen`, and read the block's `out_channels`. -/
def modelGenInit (registry : List (String × List GElem))
    (cfg : String ⊕ List GElem) (in_channels : Nat) :
    Except Err (CompiledBlock × Nat) := do
  let branch ← match cfg with
    | .inr l => Except.ok l
    | .inl name => dictGet registry name
  let blk ← blockGenInit in_channels [GElem.list branch]
  let outC ← match blk.out_channels with
    | some c => Except.ok c
    | none => Except.error Err.attributeError
  .ok (blk, outC)

/-! Structural predicates used to state the claims. -/

mutual

/-- A state slot has the shape that mirrors one layer position: at a
    nested `BlockGen` position it must be a list with one sub-list per
    nested branch, recursively; a leaf position admits any single slot. -/
def slotMirrors : CLayer → SVal σ → Bool
  | .block net _ _, .list entries => entriesMirror net entries
  | .block _ _ _, _ => false
  | _, _ => true

/-- Entries of a nested state value mirror a branch list: one list entry
    per branch, each a list with one slot per layer position. -/
def entriesMirror : List (List CLayer) → List (SVal σ) → Bool
  | [], [] => true
  | b :: bs, .list sl :: es => branchMirrors b sl && entriesMirror bs es
  | _, _ => false

/-- A slot list mirrors a branch: one slot per layer position. -/
def branchMirrors : List CLayer → List (SVal σ) → Bool
  | [], [] => true
  | c :: cs, s :: ss => slotMirrors c s && branchMirrors cs ss
  | _, _ => false

end

/-- A returned `out_state` mirrors the compiled net: one entry per
    branch, each a list with one slot per layer position, recursively at
    nested `BlockGen` positions. -/
def netMirrors : List (List CLayer) → List (List (SVal σ)) → Bool
  | [], [] => true
  | b :: bs, sl :: ss => branchMirrors b sl && netMirrors bs ss
  | _, _ => false

mutual

/-- A state slot that one layer position can consume without raising: an
    `snn.LIFCell` accepts `None` or an opaque state, a nested `BlockGen`
    accepts `None` or a compatible entry list, a stateless position never
    reads its slot. -/
def compatSlot : CLayer → SVal σ → Bool
  | .block _ _ _, .noneV => true
  | .block net _ _, .list entries => compatEntries net entries
  | .block _ _ _, .leaf _ => false
  | .lif, .list _ => false
  | _, _ => true

/-- Branch entries a block can consume: one entry per branch, each `None`
    (fresh slots are synthesized) or a compatible slot list. -/
def compatEntries : List (List CLayer) → List (SVal σ) → Bool
  | [], [] => true
  | _ :: bs, .noneV :: es => compatEntries bs es
  | b :: bs, .list sl :: es => compatBranch b sl && compatEntries bs es
  | _, _ => false

/-- A slot list a branch can consume: one compatible slot per layer. -/
def compatBranch : List CLayer → List (SVal σ) → Bool
  | [], [] => true
  | c :: cs, s :: ss => compatSlot c s && compatBranch cs ss
  | _, _ => false

end

mutual

/-- Well-formedness that `BlockGen.__init__` establishes: each stored
    mask bit equals the statefulness of its layer, and every nested
    block is itself well-formed with at least one branch. -/
def wfLayer : CLayer → Bool
  | .block net mask _ => wfNet net mask && !net.isEmpty
  | _ => true

/-- Well-formedness of a net with its parallel mask list. -/
def wfNet : List (List CLayer) → List (List Bool) → Bool
  | [], [] => true
  | b :: bs, m :: ms => wfBranch b m && wfNet bs ms
  | _, _ => false

/-- Well-formedness of one branch with its mask. -/
def wfBranch : List CLayer → List Bool → Bool
  | [], [] => true
  | c :: cs, f :: fs => (f == isStatefulC c) && wfLayer c && wfBranch cs fs
  | _, _ => false

end

mutual

/-- No temporally-stateful leaf (`snn.LIFCell`) at any nesting depth. -/
def layerLifFree : CLayer → Bool
  | .lif => false
  | .block net _ _ => netLifFree net
  | _ => true

/-- Lif-freeness of a whole net. -/
def netLifFree : List (List CLayer) → Bool
  | [] => true
  | b :: bs => branchLifFree b && netLifFree bs

/-- Lif-freeness of one branch. -/
def branchLifFree : List CLayer → Bool
  | [] => true
  | c :: cs => layerLifFree c && branchLifFree cs

end

/-- Every leaf of a state value is `None` (the container structure may
    still be present). -/
def leavesNone : SVal σ → Bool
  | .noneV => true
  | .leaf _ => false
  | .list [] => true
  | .list (s :: rest) => leavesNone s && leavesNone (SVal.list rest)

/-! Helper lemmas. -/

theorem compatSlot_noneV (c : CLayer) : compatSlot c (SVal.noneV (σ := σ)) = true := by
  cases c <;> simp [compatSlot]

theorem compatBranch_replicate (cs : List CLayer) :
    compatBranch cs (List.replicate cs.length (SVal.noneV (σ := σ))) = true := by
  induction cs with
  | nil => simp [compatBranch]
  | cons c cs ih => simp [List.replicate, compatBranch, compatSlot_noneV, ih]

theorem compatEntries_replicate (net : List (List CLayer)) :
    compatEntries net (List.replicate net.length (SVal.noneV (σ := σ))) = true := by
  induction net with
  | nil => simp [compatEntries]
  | cons b bs ih => simp [List.replicate, compatEntries, ih]

theorem statelessForward_ok (B : Backend T σ) (c : CLayer) (X : T)
    (h : isStatefulC c = false) : ∃ y, statelessForward B c X = .ok y := by
  cases c <;> simp_all [isStatefulC, statelessForward]

theorem slotMirrors_of_stateless (c : CLayer) (s : SVal σ)
    (h : isStatefulC c = false) : slotMirrors c s = true := by
  cases c <;> simp_all [isStatefulC, slotMirrors]

theorem get_append_len {α : Type} (pre : List α) (p : α) (ps : List α) :
    (pre ++ p :: ps).get? pre.length = some p := by
  induction pre with
  | nil => rfl
  | cons a pre ih => simpa using ih

theorem set_append_len {α : Type} (pre : List α) (p : α) (ps : List α) (v : α) :
    (pre ++ p :: ps).set pre.length v = pre ++ v :: ps := by
  induction pre with
  | nil => rfl
  | cons a pre ih => simp [List.set, ih]

/-- Package of per-branch facts produced by a successful branch run. -/
def BranchFits (b : List CLayer) (r : T × List (SVal σ)) : Prop :=
  compatBranch b r.2 = true ∧ branchMirrors b r.2 = true

theorem forall2_compatEntries {net : List (List CLayer)}
    {rs : List (T × List (SVal σ))} (h : List.Forall₂ BranchFits net rs) :
    compatEntries net (rs.map fun r => SVal.list r.2) = true := by
  induction h with
  | nil => simp [compatEntries]
  | cons hf _ ih => simp [compatEntries, hf.1, ih]

theorem forall2_entriesMirror {net : List (List CLayer)}
    {rs : List (T × List (SVal σ))} (h : List.Forall₂ BranchFits net rs) :
    entriesMirror net (rs.map fun r => SVal.list r.2) = true := by
  induction h with
  | nil => simp [entriesMirror]
  | cons hf _ ih => simp [entriesMirror, hf.2, ih]

theorem forall2_netMirrors {net : List (List CLayer)}
    {rs : List (T × List (SVal σ))} (h : List.Forall₂ BranchFits net rs) :
    netMirrors net (rs.map Prod.snd) = true := by
  induction h with
  | nil => simp [netMirrors]
  | cons hf _ ih => simp [netMirrors, hf.2, ih]

/-! Main totality and shape-preservation lemmas, by mutual induction on
     the compiled structure. -/

mutual

theorem statefulForward_tot (B : Backend T σ) (c : CLayer) (X : T) (p : SVal σ)
    (hs : isStatefulC c = true) (hw : wfLayer c = true)
    (hc : compatSlot c p = true) :
    ∃ y s1, statefulForward B c X p = .ok (y, s1) ∧
      compatSlot c s1 = true ∧ slotMirrors c s1 = true := by
  cases c with
  | lif =>
      cases p with
      | noneV =>
          exact ⟨(B.lif X none).1, .leaf (B.lif X none).2,
            by simp [statefulForward], by simp [compatSlot], by simp [slotMirrors]⟩
      | leaf s =>
          exact ⟨(B.lif X (some s)).1, .leaf (B.lif X (some s)).2,
            by simp [statefulForward], by simp [compatSlot], by simp [slotMirrors]⟩
      | list l => simp [compatSlot] at hc
  | block net mask outCh =>
      have hw1 : wfNet net mask = true ∧ ¬net = [] := by
        have h := hw
        simp [wfLayer, Bool.and_eq_true, List.isEmpty_iff] at h
        exact h
      have hent : ∃ entries, stateEntries net.length p = .ok entries ∧
          compatEntries net entries = true := by
        cases p with
        | noneV => exact ⟨_, by simp [stateEntries], compatEntries_replicate net⟩
        | leaf s => simp [compatSlot] at hc
        | list es =>
            refine ⟨es, by simp [stateEntries], ?_⟩
            simpa [compatSlot] using hc
      obtain ⟨entries, hent1, hent2⟩ := hent
      obtain ⟨rs, hrun, hf2⟩ := runBranches_tot B net mask entries X hw1.1 hent2
      have hlen : rs.length = net.length := (List.Forall₂.length_eq hf2).symm
      have hne : ¬rs = [] := by
        intro h0
        exact hw1.2 (by simpa [h0] using hlen.symm)
      obtain ⟨r0, rs', hrs⟩ : ∃ r0 rs', rs = r0 :: rs' := by
        cases rs with
        | nil => exact absurd rfl hne
        | cons a b => exact ⟨a, b, rfl⟩
      refine ⟨(rs'.map Prod.fst).foldl B.add r0.1,
        .list (rs.map fun r => SVal.list r.2), ?_, ?_, ?_⟩
      · simp only [statefulForward, hent1]
        simp [hrun, hrs, stackSum, Bind.bind, Except.bind]
      · simpa [compatSlot] using forall2_compatEntries hf2
      · simpa [slotMirrors] using forall2_entriesMirror hf2
  | conv a b c d e => simp [isStatefulC] at hs
  | avgPool a b => simp [isStatefulC] at hs
  | maxPool a b => simp [isStatefulC] at hs
  | sumPool a b => simp [isStatefulC] at hs
  | norm a => simp [isStatefulC] at hs
  | storage => simp [isStatefulC] at hs

theorem runBranches_tot (B : Backend T σ) (net : List (List CLayer))
    (mask : List (List Bool)) (entries : List (SVal σ)) (X : T)
    (hw : wfNet net mask = true) (hc : compatEntries net entries = true) :
    ∃ rs, runBranches B net mask entries X = .ok rs ∧
      List.Forall₂ (BranchFits (T := T)) net rs := by
  cases net with
  | nil =>
      cases entries with
      | nil => exact ⟨[], by simp [runBranches], List.Forall₂.nil⟩
      | cons e es => simp [compatEntries] at hc
  | cons b bs =>
      cases mask with
      | nil => simp [wfNet] at hw
      | cons m ms =>
          obtain ⟨hwb, hwn⟩ : wfBranch b m = true ∧ wfNet bs ms = true := by
            simpa [wfNet, Bool.and_eq_true] using hw
          cases entries with
          | nil => simp [compatEntries] at hc
          | cons e es =>
              have hslots : ∃ slots, stateEntries b.length e = .ok slots ∧
                  compatBranch b slots = true ∧ compatEntries bs es = true := by
                cases e with
                | noneV =>
                    refine ⟨_, by simp [stateEntries], compatBranch_replicate b, ?_⟩
                    simpa [compatEntries] using hc
                | leaf s => simp [compatEntries] at hc
                | list sl =>
                    have h := hc
                    simp [compatEntries, Bool.and_eq_true] at h
                    exact ⟨sl, by simp [stateEntries], h.1, h.2⟩
              obtain ⟨slots, hse, hcb, hces⟩ := hslots
              obtain ⟨y, os, hrl, hc1, hm1⟩ :=
                runLayers_tot B b m [] slots X hwb hcb
              obtain ⟨rs', hrun', hf2'⟩ := runBranches_tot B bs ms es X hwn hces
              refine ⟨(y, os) :: rs', ?_, List.Forall₂.cons ⟨hc1, hm1⟩ hf2'⟩
              simp only [runBranches, hse]
              rw [show ([] : List (SVal σ)).length = 0 from rfl,
                List.nil_append] at hrl
              simp [hrl, hrun', Bind.bind, Except.bind]

theorem runLayers_tot (B : Backend T σ) (cs : List CLayer) (fsl : List Bool)
    (pre post : List (SVal σ)) (X : T)
    (hw : wfBranch cs fsl = true) (hc : compatBranch cs post = true) :
    ∃ y os, runLayers B cs fsl pre.length (pre ++ post) X = .ok (y, pre ++ os) ∧
      compatBranch cs os = true ∧ branchMirrors cs os = true := by
  cases cs with
  | nil =>
      cases fsl with
      | nil =>
          cases post with
          | nil =>
              exact ⟨X, [], by simp [runLayers], by simp [compatBranch],
                by simp [branchMirrors]⟩
          | cons p ps => simp [compatBranch] at hc
      | cons f fs => simp [wfBranch] at hw
  | cons c cs' =>
      cases fsl with
      | nil => simp [wfBranch] at hw
      | cons f fs' =>
          obtain ⟨hf, hwl, hwb⟩ : f = isStatefulC c ∧ wfLayer c = true ∧
              wfBranch cs' fs' = true := by
            simpa [wfBranch, Bool.and_eq_true, and_assoc] using hw
          cases post with
          | nil => simp [compatBranch] at hc
          | cons p ps =>
              obtain ⟨hcs, hcb⟩ : compatSlot c p = true ∧
                  compatBranch cs' ps = true := by
                simpa [compatBranch, Bool.and_eq_true] using hc
              by_cases hst : isStatefulC c = true
              · obtain ⟨y1, s1, hsf, hcs1, hsm1⟩ :=
                  statefulForward_tot B c X p hst hwl hcs
                obtain ⟨y, os1, hrl, hc2, hm2⟩ :=
                  runLayers_tot B cs' fs' (pre ++ [s1]) ps y1 hwb hcb
                refine ⟨y, s1 :: os1, ?_, ?_, ?_⟩
                · simp only [runLayers, hf, hst, if_true, get_append_len,
                    set_append_len, hsf]
                  rw [show (pre ++ [s1]).length = pre.length + 1 by simp,
                    show (pre ++ [s1]) ++ ps = pre ++ s1 :: ps by simp,
                    show (pre ++ [s1]) ++ os1 = pre ++ s1 :: os1 by simp] at hrl
                  simp [hrl, Bind.bind, Except.bind]
                · simp [compatBranch, hcs1, hc2]
                · simp [branchMirrors, hsm1, hm2]
              · have hst' : isStatefulC c = false := by
                  simpa using hst
                obtain ⟨y1, hsl⟩ := statelessForward_ok B c X hst'
                obtain ⟨y, os1, hrl, hc2, hm2⟩ :=
                  runLayers_tot B cs' fs' (pre ++ [p]) ps y1 hwb hcb
                refine ⟨y, p :: os1, ?_, ?_, ?_⟩
                · simp only [runLayers, hf, hst', Bool.false_eq_true, if_false]
                  rw [show (pre ++ [p]).length = pre.length + 1 by simp,
                    show (pre ++ [p]) ++ ps = pre ++ p :: ps by simp,
                    show (pre ++ [p]) ++ os1 = pre ++ p :: os1 by simp] at hrl
                  simp [hsl, hrl, Bind.bind, Except.bind]
                · simp [compatBranch, hcs, hc2]
                · simp [branchMirrors, slotMirrors_of_stateless c p hst', hm2]

end

/-! Compilation establishes well-formedness. -/

theorem moduleListCheck_ok : ∀ (rs : List Resolved) (ls : List CLayer),
    moduleListCheck rs = .ok ls → rs = ls.map Resolved.instL := by
  intro rs
  induction rs with
  | nil => intro ls h; simp [moduleListCheck] at h; simp [← h]
  | cons r rest ih =>
      intro ls h
      cases r with
      | identityCls => simp [moduleListCheck] at h
      | instL l =>
          simp only [moduleListCheck] at h
          cases h1 : moduleListCheck rest with
          | error e => rw [h1] at h; simp [Bind.bind, Except.bind] at h
          | ok ls' =>
              rw [h1] at h
              simp [Bind.bind, Except.bind] at h
              subst h
              simp [ih ls' h1]

theorem layerGen_get_wf (g : LayerGen) (c : Nat) :
    ∀ cl, (g.get c).1 = .instL cl → wfLayer cl = true := by
  intro cl h
  cases g with
  | pool k ks s => cases k <;> simp_all [LayerGen.get] <;> simp [← h, wfLayer]
  | _ => simp_all [LayerGen.get] <;> simp [← h, wfLayer]

theorem wfBranch_of_map (ls : List CLayer)
    (h : ∀ cl ∈ ls, wfLayer cl = true) :
    wfBranch ls (ls.map isStatefulC) = true := by
  induction ls with
  | nil => simp [wfBranch]
  | cons c cs ih =>
      simp only [List.map_cons, wfBranch, Bool.and_eq_true, beq_self_eq_true]
      exact ⟨⟨trivial, h c (by simp)⟩, ih (fun cl hm => h cl (by simp [hm]))⟩

mutual

theorem initBranches_wf (inC : Nat) (o : Option Nat) (cfgs : List GElem)
    (net : List (List CLayer)) (masks : List (List Bool)) (outC : Option Nat)
    (h : initBranches inC o cfgs = .ok (net, masks, outC)) :
    wfNet net masks = true ∧ (net = [] → outC = o) := by
  cases cfgs with
  | nil =>
      simp only [initBranches, Except.ok.injEq, Prod.mk.injEq] at h
      obtain ⟨h1, h2, h3⟩ := h
      subst h1; subst h2; subst h3
      simp [wfNet]
  | cons e rest =>
      cases e with
      | gen g => simp [initBranches] at h
      | list cfg =>
          simp only [initBranches] at h
          cases h1 : makeBranchLoop inC cfg with
          | error e => rw [h1] at h; simp [Bind.bind, Except.bind] at h
          | ok r1 =>
              obtain ⟨rs, fs, ch⟩ := r1
              rw [h1] at h
              simp only [Bind.bind, Except.bind] at h
              cases h2 : moduleListCheck rs with
              | error e => rw [h2] at h; simp at h
              | ok layers =>
                  rw [h2] at h
                  simp only at h
                  cases h3 : initBranches inC (some ch) rest with
                  | error e => rw [h3] at h; simp at h
                  | ok r3 =>
                      obtain ⟨net', masks', outC1⟩ := r3
                      rw [h3] at h
                      simp only [Except.ok.injEq, Prod.mk.injEq] at h
                      obtain ⟨hn, hm, ho⟩ := h
                      subst hn; subst hm; subst ho
                      obtain ⟨hfs, hwl⟩ := makeBranchLoop_wf inC cfg rs fs ch h1
                      have hrs := moduleListCheck_ok rs layers h2
                      have hfs2 : fs = layers.map isStatefulC := by
                        rw [hfs, hrs, List.map_map]
                        rfl
                      have hwb : wfBranch layers fs = true := by
                        rw [hfs2]
                        refine wfBranch_of_map layers ?_
                        intro cl hm
                        exact hwl (.instL cl) (by rw [hrs]; exact List.mem_map_of_mem _ hm) cl rfl
                      have hrest := initBranches_wf inC (some ch) rest net' masks' outC1 h3
                      refine ⟨by simp [wfNet, hwb, hrest.1], by intro hx; simp at hx⟩

theorem makeBranchLoop_wf (channels : Nat) (cfg : List GElem)
    (rs : List Resolved) (fs : List Bool) (out : Nat)
    (h : makeBranchLoop channels cfg = .ok (rs, fs, out)) :
    fs = rs.map isStatefulR ∧
      (∀ r ∈ rs, ∀ cl, r = .instL cl → wfLayer cl = true) := by
  cases cfg with
  | nil =>
      simp only [makeBranchLoop, Except.ok.injEq, Prod.mk.injEq] at h
      obtain ⟨h1, h2, h3⟩ := h
      subst h1; subst h2
      simp
  | cons e rest =>
      cases e with
      | list l =>
          simp only [makeBranchLoop] at h
          cases h1 : initBranches channels none l with
          | error e => rw [h1] at h; simp [Bind.bind, Except.bind] at h
          | ok r1 =>
              obtain ⟨net', masks', outC'⟩ := r1
              rw [h1] at h
              simp only [Bind.bind, Except.bind] at h
              cases outC' with
              | none => simp at h
              | some ch =>
                  simp only at h
                  cases h2 : makeBranchLoop ch rest with
                  | error e => rw [h2] at h; simp at h
                  | ok r2 =>
                      obtain ⟨ls, fs', out'⟩ := r2
                      rw [h2] at h
                      simp only [Except.ok.injEq, Prod.mk.injEq] at h
                      obtain ⟨hr, hf, ho⟩ := h
                      subst hr; subst hf
                      obtain ⟨ihf, ihw⟩ := makeBranchLoop_wf ch rest ls fs' out' h2
                      have hblock := initBranches_wf channels none l net' masks' (some ch) h1
                      have hnet' : ¬net' = [] := by
                        intro hx
                        exact Option.noConfusion (hblock.2 hx)
                      constructor
                      · simp [List.map_cons, isStatefulR, isStatefulC, ihf]
                      · intro r hm cl hcl
                        rcases List.mem_cons.mp hm with h9 | h9
                        · rw [h9] at hcl
                          have : cl = .block net' masks' (some ch) := by
                            exact (Resolved.instL.inj hcl.symm)
                          rw [this]
                          simp [wfLayer, hblock.1, List.isEmpty_iff, hnet']
                        · exact ihw r h9 cl hcl
      | gen g =>
          simp only [makeBranchLoop] at h
          cases h2 : makeBranchLoop (g.get channels).2 rest with
          | error e => rw [h2] at h; simp [Bind.bind, Except.bind] at h
          | ok r2 =>
              obtain ⟨ls, fs', out'⟩ := r2
              rw [h2] at h
              simp only [Bind.bind, Except.bind, Except.ok.injEq,
                Prod.mk.injEq] at h
              obtain ⟨hr, hf, ho⟩ := h
              subst hr; subst hf
              obtain ⟨ihf, ihw⟩ := makeBranchLoop_wf (g.get channels).2 rest ls fs' out' h2
              constructor
              · simp [List.map_cons, ihf]
              · intro r hm cl hcl
                rcases List.mem_cons.mp hm with h9 | h9
                · rw [h9] at hcl
                  exact layerGen_get_wf g channels cl (by rw [← hcl])
                · exact ihw r h9 cl hcl

end

/-- `BlockGen.__init__` produces a well-formed net/mask pair. -/
theorem blockGenInit_wf (inC : Nat) (cfgs : List GElem) (blk : CompiledBlock)
    (h : blockGenInit inC cfgs = .ok blk) :
    wfNet blk.net blk.branch_state = true ∧
      (blk.net = [] → blk.out_channels = none) := by
  have h1 : initBranches inC none cfgs = .ok (blk.net, blk.branch_state, blk.out_channels) := by
    simp only [blockGenInit] at h
    cases h2 : initBranches inC none cfgs with
    | error e => rw [h2] at h; simp [Bind.bind, Except.bind] at h
    | ok r =>
        rw [h2] at h
        simp [Bind.bind, Except.bind] at h
        rw [← h]
  exact initBranches_wf inC none cfgs blk.net blk.branch_state blk.out_channels h1

/-! Statelessness preservation: with no `snn.LIFCell` anywhere, every
     leaf of every produced state stays `None`. -/

theorem leavesNone_list (l : List (SVal σ)) :
    leavesNone (SVal.list l) = true ↔ ∀ s ∈ l, leavesNone s = true := by
  induction l with
  | nil => simp [leavesNone]
  | cons s rest ih => simp [leavesNone, Bool.and_eq_true, ih]

mutual

theorem statefulForward_leaves (B : Backend T σ) (c : CLayer) (X : T)
    (p : SVal σ) (y : T) (s1 : SVal σ)
    (h : statefulForward B c X p = .ok (y, s1))
    (hl : layerLifFree c = true) (hp : leavesNone p = true) :
    leavesNone s1 = true := by
  cases c with
  | lif => simp [layerLifFree] at hl
  | block net mask outCh =>
      simp only [statefulForward] at h
      have hent : ∃ entries, stateEntries net.length p = .ok entries ∧
          ∀ e ∈ entries, leavesNone e = true := by
        cases p with
        | noneV =>
            refine ⟨List.replicate net.length SVal.noneV,
              by simp [stateEntries], ?_⟩
            intro e he
            rw [List.eq_of_mem_replicate he]
            simp [leavesNone]
        | leaf s => simp [leavesNone] at hp
        | list es =>
            exact ⟨es, by simp [stateEntries], (leavesNone_list es).mp hp⟩
      obtain ⟨entries, he1, he2⟩ := hent
      rw [he1] at h
      simp only [Bind.bind, Except.bind] at h
      cases h2 : runBranches B net mask entries X with
      | error e => rw [h2] at h; simp at h
      | ok rs =>
          rw [h2] at h
          simp only at h
          cases h3 : stackSum B (rs.map Prod.fst) with
          | error e => rw [h3] at h; simp at h
          | ok merged =>
              rw [h3] at h
              simp only [Except.ok.injEq, Prod.mk.injEq] at h
              rw [← h.2]
              have hall := runBranches_leaves B net mask entries X rs h2
                (by simpa [layerLifFree] using hl) he2
              rw [leavesNone_list]
              intro s hs
              obtain ⟨r, hr, hrs⟩ := List.mem_map.mp hs
              rw [← hrs, leavesNone_list]
              exact hall r hr
  | conv a b c d e => simp [statefulForward] at h
  | avgPool a b => simp [statefulForward] at h
  | maxPool a b => simp [statefulForward] at h
  | sumPool a b => simp [statefulForward] at h
  | norm a => simp [statefulForward] at h
  | storage => simp [statefulForward] at h

theorem runBranches_leaves (B : Backend T σ) (net : List (List CLayer))
    (mask : List (List Bool)) (entries : List (SVal σ)) (X : T)
    (rs : List (T × List (SVal σ)))
    (h : runBranches B net mask entries X = .ok rs)
    (hl : netLifFree net = true) (he : ∀ e ∈ entries, leavesNone e = true) :
    ∀ r ∈ rs, ∀ s ∈ r.2, leavesNone s = true := by
  cases net with
  | nil =>
      simp [runBranches] at h
      subst h
      simp
  | cons b bs =>
      cases mask with
      | nil =>
          simp [runBranches] at h
          subst h
          simp
      | cons m ms =>
          cases entries with
          | nil =>
              simp [runBranches] at h
              subst h
              simp
          | cons e es =>
              obtain ⟨hlb, hlbs⟩ : branchLifFree b = true ∧ netLifFree bs = true := by
                simpa [netLifFree, Bool.and_eq_true] using hl
              simp only [runBranches] at h
              have hslots : ∃ slots, stateEntries b.length e = .ok slots ∧
                  ∀ s ∈ slots, leavesNone s = true := by
                cases e with
                | noneV =>
                    refine ⟨List.replicate b.length SVal.noneV,
                      by simp [stateEntries], ?_⟩
                    intro s hs
                    rw [List.eq_of_mem_replicate hs]
                    simp [leavesNone]
                | leaf s =>
                    have := he (.leaf s) (by simp)
                    simp [leavesNone] at this
                | list sl =>
                    refine ⟨sl, by simp [stateEntries], ?_⟩
                    have := he (.list sl) (by simp)
                    exact (leavesNone_list sl).mp this
              obtain ⟨slots, hs1, hs2⟩ := hslots
              rw [hs1] at h
              simp only [Bind.bind, Except.bind] at h
              cases h2 : runLayers B b m 0 slots X with
              | error e => rw [h2] at h; simp at h
              | ok r1 =>
                  obtain ⟨y, os⟩ := r1
                  rw [h2] at h
                  cases h3 : runBranches B bs ms es X with
                  | error e => rw [h3] at h; simp at h
                  | ok rs' =>
                      rw [h3] at h
                      simp only [Except.ok.injEq] at h
                      rw [← h]
                      intro r hr
                      rcases List.mem_cons.mp hr with h9 | h9
                      · rw [h9]
                        exact runLayers_leaves B b m 0 slots X y os h2 hlb hs2
                      · exact runBranches_leaves B bs ms es X rs' h3 hlbs
                          (fun e1 he1 => he e1 (by simp [he1])) r h9

theorem runLayers_leaves (B : Backend T σ) (cs : List CLayer)
    (fsl : List Bool) (idx : Nat) (bst : List (SVal σ)) (X : T) (y : T)
    (os : List (SVal σ))
    (h : runLayers B cs fsl idx bst X = .ok (y, os))
    (hl : branchLifFree cs = true) (hb : ∀ s ∈ bst, leavesNone s = true) :
    ∀ s ∈ os, leavesNone s = true := by
  cases cs with
  | nil =>
      simp [runLayers, Prod.mk.injEq] at h
      rw [← h.2]
      exact hb
  | cons c cs' =>
      cases fsl with
      | nil =>
          simp [runLayers, Prod.mk.injEq] at h
          rw [← h.2]
          exact hb
      | cons f fs' =>
          obtain ⟨hlc, hlcs⟩ : layerLifFree c = true ∧ branchLifFree cs' = true := by
            simpa [branchLifFree, Bool.and_eq_true] using hl
          simp only [runLayers] at h
          cases f with
          | true =>
              simp only [if_true] at h
              cases hg : bst.get? idx with
              | none => rw [hg] at h; simp at h
              | some slot =>
                  rw [hg] at h
                  simp only [Bind.bind, Except.bind] at h
                  cases hsf : statefulForward B c X slot with
                  | error e => rw [hsf] at h; simp at h
                  | ok r1 =>
                      obtain ⟨y1, s1⟩ := r1
                      rw [hsf] at h
                      simp only at h
                      have hslot : leavesNone slot = true :=
                        hb slot (List.get?_mem hg)
                      have hs1 : leavesNone s1 = true :=
                        statefulForward_leaves B c X slot y1 s1 hsf hlc hslot
                      exact runLayers_leaves B cs' fs' (idx + 1)
                        (bst.set idx s1) y1 y os h hlcs
                        (fun s hs => by
                          rcases List.mem_or_eq_of_mem_set hs with h9 | h9
                          · exact hb s h9
                          · rw [h9]; exact hs1)
          | false =>
              simp only [Bool.false_eq_true, if_false] at h
              cases hsl : statelessForward B c X with
              | error e => rw [hsl] at h; simp [Bind.bind, Except.bind] at h
              | ok y1 =>
                  rw [hsl] at h
                  simp only [Bind.bind, Except.bind] at h
                  exact runLayers_leaves B cs' fs' (idx + 1) bst y1 y os h hlcs hb

end

/-! Truncation behaviour of the branch loop, and permutation
     machinery for the merge. -/

/-- The `zip` truncation of the branch loop: supplying a state list with
    `k` entries makes `forward` execute exactly the first `k` branches. -/
theorem runBranches_truncate (B : Backend T σ) (net : List (List CLayer))
    (mask : List (List Bool)) (entries : List (SVal σ)) (X : T) :
    runBranches B net mask entries X =
      runBranches B (net.take entries.length) (mask.take entries.length)
        entries X := by
  induction entries generalizing net mask with
  | nil =>
      cases net with
      | nil => cases mask <;> simp [runBranches]
      | cons b bs =>
          cases mask with
          | nil => simp [runBranches]
          | cons m ms => simp [runBranches]
  | cons e es ih =>
      cases net with
      | nil => cases mask <;> simp [runBranches]
      | cons b bs =>
          cases mask with
          | nil => simp [runBranches]
          | cons m ms =>
              simp only [List.length_cons, List.take_succ_cons, runBranches]
              rw [ih bs ms]

/-- Python's `zip` over three lists. -/
def zip3 {α β γ : Type} : List α → List β → List γ → List (α × β × γ)
  | a :: as1, b :: bs, c :: cs => (a, b, c) :: zip3 as1 bs cs
  | _, _, _ => []

/-- The branch loop re-expressed over the zipped triples: each triple is
    processed independently of the others. -/
def runZip (B : Backend T σ) :
    List (List CLayer × List Bool × SVal σ) → T →
    Except Err (List (T × List (SVal σ)))
  | [], _ => .ok []
  | (b, f, st) :: rest, X => do
      let slots ← stateEntries b.length st
      let r ← runLayers B b f 0 slots X
      let rs ← runZip B rest X
      .ok (r :: rs)

theorem runBranches_eq_runZip (B : Backend T σ) (net : List (List CLayer))
    (mask : List (List Bool)) (entries : List (SVal σ)) (X : T) :
    runBranches B net mask entries X = runZip B (zip3 net mask entries) X := by
  induction net generalizing mask entries with
  | nil =>
      cases mask with
      | nil => cases entries <;> simp [runBranches, zip3, runZip]
      | cons m ms => cases entries <;> simp [runBranches, zip3, runZip]
  | cons b bs ih =>
      cases mask with
      | nil => cases entries <;> simp [runBranches, zip3, runZip]
      | cons m ms =>
          cases entries with
          | nil => simp [runBranches, zip3, runZip]
          | cons e es =>
              simp only [runBranches, zip3, runZip]
              rw [ih ms es]

/-- A branch whose triple succeeds, succeeds with the same result after
    any permutation of the surrounding triples, and the result list is
    permuted accordingly. -/
theorem runZip_perm (B : Backend T σ)
    {p q : List (List CLayer × List Bool × SVal σ)} (hp : p.Perm q) (X : T) :
    ∀ rs, runZip B p X = .ok rs →
      ∃ rs', runZip B q X = .ok rs' ∧ rs.Perm rs' := by
  induction hp with
  | nil =>
      intro rs h
      exact ⟨rs, h, List.Perm.refl rs⟩
  | cons t hperm ih =>
      rename_i l1 l2
      intro rs h
      obtain ⟨b, f, st⟩ := t
      simp only [runZip] at h ⊢
      cases h1 : stateEntries b.length st with
      | error e => rw [h1] at h; simp [Bind.bind, Except.bind] at h
      | ok slots =>
          rw [h1] at h
          simp only [Bind.bind, Except.bind] at h ⊢
          cases h2 : runLayers B b f 0 slots X with
          | error e => rw [h2] at h; simp at h
          | ok r =>
              rw [h2] at h
              simp only at h
              cases h3 : runZip B l1 X with
              | error e0 => rw [h3] at h; simp at h
              | ok rs0 =>
                  rw [h3] at h
                  simp only [Except.ok.injEq] at h
                  obtain ⟨rs0', h4, h5⟩ := ih rs0 h3
                  simp only [h4]
                  exact ⟨r :: rs0', rfl, by rw [← h]; exact h5.cons r⟩
  | swap t u l =>
      intro rs h
      obtain ⟨b1, f1, st1⟩ := t
      obtain ⟨b2, f2, st2⟩ := u
      simp only [runZip] at h ⊢
      cases h1 : stateEntries b2.length st2 with
      | error e => rw [h1] at h; simp [Bind.bind, Except.bind] at h
      | ok slots2 =>
          rw [h1] at h
          simp only [Bind.bind, Except.bind] at h ⊢
          cases h2 : runLayers B b2 f2 0 slots2 X with
          | error e => rw [h2] at h; simp at h
          | ok r2 =>
              rw [h2] at h
              simp only at h
              cases h3 : stateEntries b1.length st1 with
              | error e => rw [h3] at h; simp at h
              | ok slots1 =>
                  rw [h3] at h
                  simp only at h
                  cases h4 : runLayers B b1 f1 0 slots1 X with
                  | error e => rw [h4] at h; simp at h
                  | ok r1 =>
                      rw [h4] at h
                      simp only at h
                      cases h5 : runZip B l X with
                      | error e => rw [h5] at h; simp at h
                      | ok rs0 =>
                          rw [h5] at h
                          simp only [Except.ok.injEq] at h
                          simp only [h1, h2, h3, h4, h5]
                          refine ⟨r1 :: r2 :: rs0, rfl, ?_⟩
                          rw [← h]
                          exact List.Perm.swap r1 r2 rs0
  | trans hpq hqr ih1 ih2 =>
      intro rs h
      obtain ⟨rs1, h1, hp1⟩ := ih1 rs h
      obtain ⟨rs2, h2, hp2⟩ := ih2 rs1 h1
      exact ⟨rs2, h2, hp1.trans hp2⟩

/-- Folding a commutative associative addition is invariant under
    permutation of the folded list. -/
theorem foldl_add_perm (B : Backend T σ)
    (hcomm : ∀ a b, B.add a b = B.add b a)
    (hassoc : ∀ a b c, B.add (B.add a b) c = B.add a (B.add b c))
    {l l' : List T} (hp : l.Perm l') : ∀ x, l.foldl B.add x = l'.foldl B.add x := by
  induction hp with
  | nil => intro x; rfl
  | cons a hperm ih => intro x; simp only [List.foldl_cons]; exact ih _
  | swap a b l =>
      intro x
      simp only [List.foldl_cons]
      have : B.add (B.add x b) a = B.add (B.add x a) b := by
        rw [hassoc, hassoc, hcomm b a]
      rw [this]
  | trans hpq hqr ih1 ih2 => intro x; rw [ih1 x, ih2 x]

/-- `torch.stack(out).sum(dim=0)` is invariant under permutation of the
    branch outputs (exact arithmetic). -/
theorem stackSum_perm (B : Backend T σ)
    (hcomm : ∀ a b, B.add a b = B.add b a)
    (hassoc : ∀ a b c, B.add (B.add a b) c = B.add a (B.add b c))
    {l l' : List T} (hp : l.Perm l') : stackSum B l = stackSum B l' := by
  induction hp with
  | nil => rfl
  | cons a hperm ih =>
      simp only [stackSum]
      rw [foldl_add_perm B hcomm hassoc hperm]
  | swap a b l =>
      simp only [stackSum, List.foldl_cons]
      rw [hcomm b a]
  | trans hpq hqr ih1 ih2 => rw [ih1, ih2]

/-- Totality of `BlockGen.forward` on a well-formed nonempty compiled
    block fed with compatible state entries, together with the branch
    results it produces. -/
theorem blockGenForward_tot (B : Backend T σ) (blk : CompiledBlock) (X : T)
    (state : SVal σ) (entries : List (SVal σ))
    (hw : wfNet blk.net blk.branch_state = true) (hne : ¬blk.net = [])
    (hse : stateEntries blk.net.length state = .ok entries)
    (hc : compatEntries blk.net entries = true) :
    ∃ y rs, blockGenForward B blk X state = .ok (y, rs.map Prod.snd) ∧
      runBranches B blk.net blk.branch_state entries X = .ok rs ∧
      List.Forall₂ (BranchFits (T := T)) blk.net rs := by
  obtain ⟨rs, hrun, hf2⟩ := runBranches_tot B blk.net blk.branch_state entries X hw hc
  have hlen : rs.length = blk.net.length := (List.Forall₂.length_eq hf2).symm
  obtain ⟨r0, rs', hrs⟩ : ∃ r0 rs', rs = r0 :: rs' := by
    cases rs with
    | nil =>
        exact absurd (by simpa using hlen.symm) hne
    | cons a b => exact ⟨a, b, rfl⟩
  refine ⟨(rs'.map Prod.fst).foldl B.add r0.1, rs, ?_, hrun, hf2⟩
  simp only [blockGenForward, hse]
  simp [hrun, hrs, stackSum, Bind.bind, Except.bind]

/-- Repeated time steps, the caller threading the returned state
    container into the next call (`x, state = model(x, state)`), starting
    from an absent state. -/
def iterForward (B : Backend T σ) (blk : CompiledBlock) (X : T) :
    Nat → Except Err (T × List (List (SVal σ)))
  | 0 => blockGenForward B blk X .noneV
  | n + 1 => do
      let r ← iterForward B blk X n
      blockGenForward B blk X (.list (r.2.map SVal.list))

theorem iterForward_inv (B : Backend T σ) (blk : CompiledBlock) (X : T)
    (hw : wfNet blk.net blk.branch_state = true) (hne : ¬blk.net = [])
    (hlf : netLifFree blk.net = true) :
    ∀ n, ∃ y rs, iterForward B blk X n = .ok (y, rs.map Prod.snd) ∧
      List.Forall₂ (BranchFits (T := T)) blk.net rs ∧
      ∀ r ∈ rs, ∀ s ∈ r.2, leavesNone s = true := by
  intro n
  induction n with
  | zero =>
      obtain ⟨y, rs, heq, hrun, hf2⟩ := blockGenForward_tot B blk X .noneV
        (List.replicate blk.net.length SVal.noneV) hw hne
        (by simp [stateEntries]) (compatEntries_replicate blk.net)
      refine ⟨y, rs, heq, hf2, ?_⟩
      refine runBranches_leaves B blk.net blk.branch_state _ X rs hrun hlf ?_
      intro e he
      rw [List.eq_of_mem_replicate he]
      simp [leavesNone]
  | succ n ih =>
      obtain ⟨y, rs, hiter, hf2, hleaves⟩ := ih
      have hmm : (rs.map Prod.snd).map SVal.list =
          rs.map (fun r => SVal.list r.2) := by
        simp [List.map_map]
      obtain ⟨y2, rs2, heq2, hrun2, hf22⟩ := blockGenForward_tot B blk X
        (.list ((rs.map Prod.snd).map SVal.list))
        ((rs.map Prod.snd).map SVal.list) hw hne (by simp [stateEntries])
        (by rw [hmm]; exact forall2_compatEntries hf2)
      refine ⟨y2, rs2, ?_, hf22, ?_⟩
      · simp only [iterForward, hiter, Bind.bind, Except.bind]
        exact heq2
      · refine runBranches_leaves B blk.net blk.branch_state _ X rs2 hrun2 hlf ?_
        intro e he
        rw [hmm] at he
        obtain ⟨r, hr, hre⟩ := List.mem_map.mp he
        rw [← hre, leavesNone_list]
        exact hleaves r hr

/-! Characterization of the post-call state container, and the
     substring test used to read the claim about error messages. -/

theorem updateEntries_length (l : List (SVal σ)) (os : List (List (SVal σ))) :
    (updateEntries l os).length = l.length := by
  induction l generalizing os with
  | nil => cases os <;> simp [updateEntries]
  | cons e l ih =>
      cases os with
      | nil => simp [updateEntries]
      | cons o os => simp [updateEntries, ih]

/-- The expected value of entry `i` of the caller's container after a
    call: untouched when the branch was never executed, still `None`
    when it was supplied as `None`, and otherwise overwritten with the
    `i`-th returned per-branch state list. -/
def expectEntry (l : List (SVal σ)) (os : List (List (SVal σ)))
    (i : Nat) : Option (SVal σ) :=
  match os.get? i with
  | none => l.get? i
  | some o => (l.get? i).map
      (fun e => match e with
        | SVal.noneV => SVal.noneV
        | _ => SVal.list o)

theorem updateEntries_get (l : List (SVal σ)) (os : List (List (SVal σ)))
    (i : Nat) :
    (updateEntries l os).get? i = expectEntry l os i := by
  simp only [expectEntry]
  induction l generalizing os i with
  | nil =>
      cases os with
      | nil => simp [updateEntries]
      | cons o os =>
          cases i with
          | zero => simp [updateEntries]
          | succ j =>
              simp [updateEntries]
              cases h : os[j]? <;> simp [h]
  | cons e l ih =>
      cases os with
      | nil => simp [updateEntries]
      | cons o os =>
          cases i with
          | zero => cases e <;> simp [updateEntries]
          | succ j => simpa [updateEntries] using ih os j

/-- Whether `needle` occurs as a contiguous substring of `hay`. -/
def hasSub (needle : List Char) : List Char → Bool
  | [] => needle.isEmpty
  | c :: t => needle.isPrefixOf (c :: t) || hasSub needle t

/-- Reading of "the error lists the valid preset names": every valid name
    occurs in the exception's message. -/
def listsValidNames (e : Err) (names : List String) : Bool :=
  names.all (fun n => hasSub n.data (Err.message e).data)

/-- Backend over integer scalars standing in for tensors, used to
    evaluate the model on concrete inputs: each layer kind acts by a
    distinct recognizable arithmetic function, and the LIF cell's state
    counts its activations. -/
def Bw : Backend Int Int where
  conv := fun _ oc _ _ _ x => x + oc
  avgPool2d := fun _ _ _ x => x
  maxPool := fun _ _ x => x
  norm := fun _ x => x
  lif := fun x s => (x + s.getD 0, x + s.getD 0 + 1)
  scale := fun n x => n * x
  add := fun a b => a + b

/-! Claim theorems. -/

/-- C1 counterexample: the claim asserts that compiling a merge group
    whose branches resolve to differing output channel counts fails with
    a structural configuration error at construction.  The source makes
    no such check: at input channel count 4 the two branches below
    resolve to output counts 8 and 9 respectively, yet `BlockGen.__init__`
    completes silently, keeping the last branch's count. -/
theorem C1_counterexample :
    makeBranchLoop 4 [GElem.gen (.conv 8 3 1)] =
      .ok ([.instL (.conv 4 8 3 1 1)], [false], 8) ∧
    makeBranchLoop 4 [GElem.gen (.conv 9 3 1)] =
      .ok ([.instL (.conv 4 9 3 1 1)], [false], 9) ∧
    blockGenInit 4
      [GElem.list [.gen (.conv 8 3 1)], GElem.list [.gen (.conv 9 3 1)]] =
      .ok ⟨[[.conv 4 8 3 1 1], [.conv 4 9 3 1 1]], [[false], [false]],
        some 9⟩ := by
  refine ⟨?_, ?_, ?_⟩ <;>
    simp [blockGenInit, initBranches, makeBranchLoop, LayerGen.get,
      moduleListCheck, isStatefulR, isStatefulC, Bind.bind, Except.bind]

/-- C1 amended: `BlockGen.__init__` performs no cross-branch channel
    validation: whenever each branch configuration compiles on its own,
    construction of the two-branch tree succeeds regardless of whether
    the branches' output channel counts `c1` and `c2` agree, and
    `out_channels` is silently set to the last branch's count `c2`. -/
theorem C1_amended (inC : Nat) (cfg1 cfg2 : List GElem)
    (rs1 rs2 : List Resolved) (fs1 fs2 : List Bool) (c1 c2 : Nat)
    (l1 l2 : List CLayer)
    (h1 : makeBranchLoop inC cfg1 = .ok (rs1, fs1, c1))
    (h2 : makeBranchLoop inC cfg2 = .ok (rs2, fs2, c2))
    (m1 : moduleListCheck rs1 = .ok l1)
    (m2 : moduleListCheck rs2 = .ok l2) :
    blockGenInit inC [GElem.list cfg1, GElem.list cfg2] =
      .ok ⟨[l1, l2], [fs1, fs2], some c2⟩ := by
  simp [blockGenInit, initBranches, h1, h2, m1, m2, Bind.bind, Except.bind]

/-- C1 witness: the amended statement at the concrete mismatching pair of
    convolution branches (8 versus 9 output channels). -/
theorem C1_witness :
    blockGenInit 4
      [GElem.list [.gen (.conv 8 3 1)], GElem.list [.gen (.conv 9 3 1)]] =
      .ok ⟨[[.conv 4 8 3 1 1], [.conv 4 9 3 1 1]], [[false], [false]],
        some 9⟩ :=
  C1_amended 4 [GElem.gen (.conv 8 3 1)] [GElem.gen (.conv 9 3 1)]
    [.instL (.conv 4 8 3 1 1)] [.instL (.conv 4 9 3 1 1)] [false] [false] 8 9
    [.conv 4 8 3 1 1] [.conv 4 9 3 1 1]
    (by simp [makeBranchLoop, LayerGen.get, isStatefulR, isStatefulC,
      Bind.bind, Except.bind])
    (by simp [makeBranchLoop, LayerGen.get, isStatefulR, isStatefulC,
      Bind.bind, Except.bind])
    (by simp [moduleListCheck, Bind.bind, Except.bind])
    (by simp [moduleListCheck, Bind.bind, Except.bind])

/-- C2: for every compiled `BlockGen` with at least one branch (the
    undocumented precondition recorded by C10) and every input tensor,
    `forward` with absent state succeeds and returns a state container
    whose nested shape exactly mirrors the compiled graph: one entry per
    branch, one slot per layer position, recursively at nested `BlockGen`
    positions. -/
theorem C2_theorem (B : Backend T σ) (X : T) (inC : Nat)
    (cfgs : List GElem) (blk : CompiledBlock)
    (h : blockGenInit inC cfgs = .ok blk) (hne : ¬blk.net = []) :
    ∃ y os, blockGenForward B blk X .noneV = .ok (y, os) ∧
      netMirrors blk.net os = true := by
  obtain ⟨y, rs, heq, _, hf2⟩ := blockGenForward_tot B blk X .noneV
    (List.replicate blk.net.length SVal.noneV)
    (blockGenInit_wf inC cfgs blk h).1 hne
    (by simp [stateEntries]) (compatEntries_replicate blk.net)
  exact ⟨y, rs.map Prod.snd, heq, forall2_netMirrors hf2⟩

/-- C2 witness: the shape isomorphism at a concrete one-branch graph
    holding a single LIF cell, over the integer backend. -/
theorem C2_witness :
    ∃ y os, blockGenForward Bw ⟨[[.lif]], [[true]], some 3⟩ (0 : Int)
        .noneV = .ok (y, os) ∧
      netMirrors [[CLayer.lif]] os = true :=
  C2_theorem Bw 0 3 [GElem.list [.gen .lif]] ⟨[[.lif]], [[true]], some 3⟩
    (by simp [blockGenInit, initBranches, makeBranchLoop, LayerGen.get,
      moduleListCheck, isStatefulR, isStatefulC, Bind.bind, Except.bind])
    (by simp)

/-- C3 counterexample: the claim asserts `forward` leaves a supplied
    state container unchanged.  Feeding the one-LIF graph the container
    `[[0]]` with input 1, the in-place assignment
    `branch_state[idx] = ...` overwrites the caller's branch entry: after
    the call the container holds `[[2]]`, not `[[0]]`. -/
theorem C3_counterexample :
    blockGenForwardFull Bw ⟨[[.lif]], [[true]], some 2⟩ (1 : Int)
        (SVal.list [SVal.list [SVal.leaf 0]]) =
      .ok (1, [[SVal.leaf 2]], SVal.list [SVal.list [SVal.leaf 2]]) ∧
    SVal.list [SVal.list [SVal.leaf (2 : Int)]] ≠
      SVal.list [SVal.list [SVal.leaf 0]] := by
  constructor
  · simp [blockGenForwardFull, blockGenForward, stateEntries, runBranches,
      runLayers, statefulForward, stackSum, postIncoming, updateEntries,
      Bw, Bind.bind, Except.bind]
  · simp

/-- C3 amended: the outer `out_state` list is freshly produced, but the
    caller's container is mutated in place: after a successful call with
    a supplied (list) state, the container is still a list of its
    original length whose `i`-th entry is untouched beyond the executed
    branches, remains `None` where it was `None`, and otherwise has been
    overwritten with exactly the `i`-th returned per-branch state
    list. -/
theorem C3_amended (B : Backend T σ) (blk : CompiledBlock) (X : T)
    (l : List (SVal σ)) (y : T) (os : List (List (SVal σ))) (post : SVal σ)
    (h : blockGenForwardFull B blk X (.list l) = .ok (y, os, post)) :
    ∃ pl, post = SVal.list pl ∧ pl.length = l.length ∧
      ∀ i, pl.get? i = expectEntry l os i := by
  have hpost : post = postIncoming (.list l) os := by
    simp only [blockGenForwardFull] at h
    cases h2 : blockGenForward B blk X (.list l) with
    | error e => rw [h2] at h; simp [Bind.bind, Except.bind] at h
    | ok r =>
        obtain ⟨r1, r2⟩ := r
        rw [h2] at h
        simp only [Bind.bind, Except.bind, Except.ok.injEq,
          Prod.mk.injEq] at h
        rw [← h.2.2, ← h.2.1]
  refine ⟨updateEntries l os, ?_, updateEntries_length l os,
    fun i => updateEntries_get l os i⟩
  rw [hpost]
  rfl

/-- C3 witness: the amended characterization at the concrete one-LIF
    graph and supplied container of the counterexample. -/
theorem C3_witness :
    ∃ pl, SVal.list [SVal.list [SVal.leaf (2 : Int)]] = SVal.list pl ∧
      pl.length = [SVal.list [SVal.leaf (0 : Int)]].length ∧
      ∀ i, pl.get? i =
        expectEntry [SVal.list [SVal.leaf (0 : Int)]]
          [[SVal.leaf (2 : Int)]] i := by
  exact C3_amended Bw ⟨[[.lif]], [[true]], some 2⟩ (1 : Int)
    [SVal.list [SVal.leaf 0]] 1 [[SVal.leaf 2]]
    (SVal.list [SVal.list [SVal.leaf 2]])
    (by simp [blockGenForwardFull, blockGenForward, stateEntries,
      runBranches, runLayers, statefulForward, stackSum, postIncoming,
      updateEntries, Bw, Bind.bind, Except.bind])

/-- C4 counterexample: the claim asserts that a state container whose
    shape does not mirror the compiled graph makes the runtime fail
    immediately with a position-identifying error.  Supplying a
    one-entry container to a two-branch graph raises nothing: `zip`
    silently truncates, only the first branch runs (output 5), and the
    second branch's contribution (7) is silently dropped relative to the
    absent-state run (output 12). -/
theorem C4_counterexample :
    blockGenForward Bw
        ⟨[[.conv 3 5 3 1 1], [.conv 3 7 3 1 1]], [[false], [false]], some 7⟩
        (0 : Int) (SVal.list [SVal.noneV]) = .ok (5, [[SVal.noneV]]) ∧
    blockGenForward Bw
        ⟨[[.conv 3 5 3 1 1], [.conv 3 7 3 1 1]], [[false], [false]], some 7⟩
        (0 : Int) SVal.noneV = .ok (12, [[SVal.noneV], [SVal.noneV]]) := by
  constructor <;>
    simp [blockGenForward, stateEntries, runBranches, runLayers,
      statelessForward, stackSum, Bw, Bind.bind, Except.bind]

/-- C4 amended: no consistency check exists.  A supplied state list with
    `k` entries makes `forward` behave exactly as the same call on the
    graph truncated to its first `k` branches: extra branches are
    silently skipped (and extra entries silently ignored), with no
    position-identifying error. -/
theorem C4_amended (B : Backend T σ) (blk : CompiledBlock) (X : T)
    (l : List (SVal σ)) :
    blockGenForward B blk X (.list l) =
      blockGenForward B
        ⟨blk.net.take l.length, blk.branch_state.take l.length,
          blk.out_channels⟩ X (.list l) := by
  simp only [blockGenForward, stateEntries, Bind.bind, Except.bind]
  rw [runBranches_truncate]

/-- C5: `Pass.get` returns the bare class object `nn.Identity` (source
    line 76 lacks the parentheses of an instantiation), not a fresh
    executable instance; consequently compiling any tree containing a
    `Pass` descriptor raises `TypeError` when the branch's
    `nn.ModuleList` is built, instead of yielding an identity layer. -/
theorem C5_theorem :
    (∀ c : Nat, LayerGen.get .pass c = (.identityCls, c)) ∧
    (∀ inC : Nat,
      blockGenInit inC [GElem.list [.gen .pass]] = .error .typeError) := by
  constructor
  · intro c; rfl
  · intro inC
    simp [blockGenInit, initBranches, makeBranchLoop, LayerGen.get,
      moduleListCheck, isStatefulR, isStatefulC, Bind.bind, Except.bind]

/-- C6 counterexample: the claim asserts that an unknown preset name
    fails with a configuration error listing the valid names.  The
    lookup `self.default_cfgs[cfg]` raises a bare `KeyError` carrying
    only the missing key: with registry `{"vgg3": []}` and request
    "resnet", the message is "resnet" and the valid name "vgg3" does not
    occur in it. -/
theorem C6_counterexample :
    modelGenInit [("vgg3", [])] (Sum.inl "resnet") 2 =
      .error (.keyError "resnet") ∧
    listsValidNames (.keyError "resnet") ["vgg3"] = false := by
  constructor
  · simp [modelGenInit, dictGet, List.find?, Bind.bind, Except.bind]
  · decide

/-- C6 amended: requesting a preset name absent from the registry fails
    at construction with `KeyError` carrying exactly the unknown key —
    the exception's message is the key itself, not a listing of the
    valid names. -/
theorem C6_amended (registry : List (String × List GElem)) (name : String)
    (inC : Nat) (h : registry.find? (fun p => p.1 == name) = none) :
    modelGenInit registry (Sum.inl name) inC = .error (.keyError name) ∧
    Err.message (.keyError name) = name := by
  exact ⟨by simp [modelGenInit, dictGet, h, Bind.bind, Except.bind], rfl⟩

/-- C6 witness: the amended statement at the concrete registry of the
    counterexample. -/
theorem C6_witness :
    modelGenInit [("vgg3", [])] (Sum.inl "resnet") 2 =
      .error (.keyError "resnet") ∧
    Err.message (.keyError "resnet") = "resnet" :=
  C6_amended [("vgg3", [])] "resnet" 2 (by simp [List.find?])

/-- C7: an empty branch compiles to the input channel count and, when
    executed, contributes the input tensor unchanged; and a one-branch
    merge is the identity: whenever the single branch produces `y`, the
    merged output of `forward` is exactly `y` (the one-term
    summation). -/
theorem C7_theorem (B : Backend T σ) (X : T) (c : Nat) :
    makeBranchLoop c ([] : List GElem) = .ok ([], [], c) ∧
    blockGenInit c [GElem.list []] = .ok ⟨[[]], [[]], some c⟩ ∧
    blockGenForward B ⟨[[]], [[]], some c⟩ X .noneV = .ok (X, [[]]) ∧
    (∀ (b : List CLayer) (f : List Bool) (oc : Option Nat) (y : T)
      (os : List (SVal σ)),
      runLayers B b f 0 (List.replicate b.length SVal.noneV) X = .ok (y, os) →
      blockGenForward B ⟨[b], [f], oc⟩ X .noneV = .ok (y, [os])) := by
  refine ⟨by simp [makeBranchLoop], ?_, ?_, ?_⟩
  · simp [blockGenInit, initBranches, makeBranchLoop, moduleListCheck,
      Bind.bind, Except.bind]
  · simp [blockGenForward, stateEntries, runBranches, runLayers, stackSum,
      Bind.bind, Except.bind]
  · intro b f oc y os hrl
    simp [blockGenForward, stateEntries, runBranches, hrl, stackSum,
      Bind.bind, Except.bind]

/-- C7 witness: the one-branch merge identity at a concrete LIF branch
    over the integer backend. -/
theorem C7_witness :
    blockGenForward Bw ⟨[[.lif]], [[true]], some 3⟩ (0 : Int) .noneV =
      .ok (0, [[SVal.leaf 1]]) :=
  (C7_theorem Bw (0 : Int) 3).2.2.2 [.lif] [true] (some 3) 0 [SVal.leaf 1]
    (by simp [runLayers, statefulForward, Bw, Bind.bind, Except.bind])

/-- C8: for a compiled graph with no LIF cell at any depth (and at least
    one branch, per C10's precondition), any number of repeated forward
    calls threading the returned state container keeps succeeding; every
    returned container is structurally present (it mirrors the graph)
    while every one of its leaves is absent. -/
theorem C8_theorem (B : Backend T σ) (X : T) (inC : Nat)
    (cfgs : List GElem) (blk : CompiledBlock)
    (h : blockGenInit inC cfgs = .ok blk) (hne : ¬blk.net = [])
    (hlf : netLifFree blk.net = true) (n : Nat) :
    ∃ y os, iterForward B blk X n = .ok (y, os) ∧
      netMirrors blk.net os = true ∧
      ∀ sl ∈ os, ∀ s ∈ sl, leavesNone s = true := by
  obtain ⟨y, rs, heq, hf2, hleaves⟩ :=
    iterForward_inv B blk X (blockGenInit_wf inC cfgs blk h).1 hne hlf n
  refine ⟨y, rs.map Prod.snd, heq, forall2_netMirrors hf2, ?_⟩
  intro sl hsl s hs
  obtain ⟨r, hr, hre⟩ := List.mem_map.mp hsl
  exact hleaves r hr s (hre ▸ hs)

/-- C8 witness: three threaded steps on a concrete LIF-free graph (one
    normalization branch). -/
theorem C8_witness :
    ∃ y os, iterForward Bw ⟨[[.norm 3]], [[false]], some 3⟩ (0 : Int) 2 =
        .ok (y, os) ∧
      netMirrors [[CLayer.norm 3]] os = true ∧
      ∀ sl ∈ os, ∀ s ∈ sl, leavesNone s = true :=
  C8_theorem Bw 0 3 [GElem.list [.gen .norm]]
    ⟨[[.norm 3]], [[false]], some 3⟩
    (by simp [blockGenInit, initBranches, makeBranchLoop, LayerGen.get,
      moduleListCheck, isStatefulR, isStatefulC, Bind.bind, Except.bind])
    (by simp)
    (by simp [netLifFree, branchLifFree, layerLifFree]) 2

/-- C9: permuting the branches of a merge group together with their mask
    bits and incoming state entries (expressed as a permutation of the
    zipped triples) leaves the merged output tensor unchanged (tensor
    addition being commutative and associative in exact arithmetic) and
    only reorders the returned per-branch states, each branch's state
    being computed from its own triple alone. -/
theorem C9_theorem (B : Backend T σ)
    (hcomm : ∀ a b, B.add a b = B.add b a)
    (hassoc : ∀ a b c, B.add (B.add a b) c = B.add a (B.add b c))
    (blk blk1 : CompiledBlock) (st st1 : List (SVal σ)) (X : T)
    (hperm : (zip3 blk.net blk.branch_state st).Perm
      (zip3 blk1.net blk1.branch_state st1))
    (y : T) (os : List (List (SVal σ)))
    (h : blockGenForward B blk X (.list st) = .ok (y, os)) :
    ∃ os1, blockGenForward B blk1 X (.list st1) = .ok (y, os1) ∧
      os.Perm os1 := by
  simp only [blockGenForward, stateEntries, Bind.bind, Except.bind,
    runBranches_eq_runZip] at h ⊢
  cases hz : runZip B (zip3 blk.net blk.branch_state st) X with
  | error e => rw [hz] at h; simp at h
  | ok rs =>
      rw [hz] at h
      simp only at h
      cases hs : stackSum B (rs.map Prod.fst) with
      | error e => rw [hs] at h; simp at h
      | ok m =>
          rw [hs] at h
          simp only [Except.ok.injEq, Prod.mk.injEq] at h
          obtain ⟨hy, hos⟩ := h
          obtain ⟨rs1, hz1, hp⟩ := runZip_perm B hperm X rs hz
          have hs1 : stackSum B (rs1.map Prod.fst) = .ok m := by
            rw [← stackSum_perm B hcomm hassoc (hp.map Prod.fst)]
            exact hs
          simp only [hz1, hs1]
          exact ⟨rs1.map Prod.snd, by rw [hy],
            by rw [← hos]; exact hp.map Prod.snd⟩

/-- C9 witness: swapping the two convolution branches of a concrete
    merge group leaves the merged output 12 unchanged and swaps the two
    returned branch states. -/
theorem C9_witness :
    ∃ os1, blockGenForward Bw
        ⟨[[.conv 3 7 3 1 1], [.conv 3 5 3 1 1]], [[false], [false]], some 5⟩
        (0 : Int) (.list [SVal.noneV, SVal.noneV]) = .ok (12, os1) ∧
      ([[SVal.noneV], [SVal.noneV]] :
          List (List (SVal Int))).Perm os1 :=
  C9_theorem Bw (fun a b => Int.add_comm a b)
    (fun a b c => Int.add_assoc a b c)
    ⟨[[.conv 3 5 3 1 1], [.conv 3 7 3 1 1]], [[false], [false]], some 7⟩
    ⟨[[.conv 3 7 3 1 1], [.conv 3 5 3 1 1]], [[false], [false]], some 5⟩
    [SVal.noneV, SVal.noneV] [SVal.noneV, SVal.noneV] 0
    (by simp only [zip3]; exact List.Perm.swap _ _ _)
    12 [[SVal.noneV], [SVal.noneV]]
    (by simp [blockGenForward, stateEntries, runBranches, runLayers,
      statelessForward, stackSum, Bw, Bind.bind, Except.bind])

/-- C10: a `BlockGen` built from zero branches leaves `out_channels`
    unassigned (modeled as `none`, so reading it fails), its execution
    fails at the merge (`torch.stack` of an empty list), and using such
    a block as a nested element makes the enclosing compilation fail
    when it reads the missing attribute — so every usable compile
    presupposes at least one branch. -/
theorem C10_theorem (B : Backend T σ) (X : T) (c : Nat) :
    blockGenInit c [] = .ok ⟨[], [], none⟩ ∧
    blockGenForward B ⟨[], [], none⟩ X SVal.noneV = .error .runtimeError ∧
    (∀ l : List (SVal σ),
      blockGenForward B ⟨[], [], none⟩ X (SVal.list l) =
        .error .runtimeError) ∧
    blockGenInit c [GElem.list [GElem.list []]] = .error .attributeError := by
  refine ⟨?_, ?_, ?_, ?_⟩
  · simp [blockGenInit, initBranches, Bind.bind, Except.bind]
  · simp [blockGenForward, stateEntries, runBranches, stackSum,
      Bind.bind, Except.bind]
  · intro l
    cases l with
    | nil =>
        simp [blockGenForward, stateEntries, runBranches, stackSum,
          Bind.bind, Except.bind]
    | cons e es =>
        simp [blockGenForward, stateEntries, runBranches, stackSum,
          Bind.bind, Except.bind]
  · simp [blockGenInit, initBranches, makeBranchLoop, moduleListCheck,
      Bind.bind, Except.bind]

end SpikeYolo
